import Mathlib

/-!
A shallow embedding of `contigtree.py`, a tool that locates records in a
flat FASTA-like contig file by numeric identifier (`linehunter`), parses
link tokens (`parse_link`), builds a depth- and orientation-bounded
connectivity tree (`buildtree`), reverse-complements sequences
(`reverse_complement`), and deduplicates the flat visit list by identifier
(the dict comprehension in the driver).

Files are modelled as `List Char` (the bytes of the memory map); the mmap
handle is a pair of the data and a read cursor.  Python exceptions become
an explicit `Err` type; each constructor records which `raise` site (or
builtin exception) it models.  Python's float division `pos/foundline`
followed by `int(target*avglen)` is modelled as exact natural division
`target * pos / foundline` (truncation of a non-negative exact ratio);
all concrete inputs used below are chosen so that the float computation
and the exact one agree.
-/

namespace Contigtree

/-- Python exceptions raised by the script, one constructor per raise
site / builtin exception kind. -/
inductive Err where
  /-- `ValueError("Malformed header line")` in `decode_fasta`/`buildtree`. -/
  | malformedHeader
  /-- `ValueError` raised by `int(...)` on non-numeric text. -/
  | badInt
  /-- `IndexError` from `header_parts[0]` when the split is empty. -/
  | indexOOB
  /-- `ValueError("Unable to parse link ...")` in `parse_link`. -/
  | malformedLink
  /-- `IndexError("Failed to find line", target)` in `linehunter`
  when the iteration budget is exceeded. -/
  | notFound (target : Nat)
  /-- `ValueError` from `m.seek(-1)` when `m.rfind` returns `-1`. -/
  | seekOutOfRange
  /-- `ZeroDivisionError` from `pos/foundline` when `foundline == 0`. -/
  | divByZero
  deriving DecidableEq, Repr

/-- Whitespace for Python's `str.strip()` / `str.split()` (the characters
that actually occur in this setting). -/
def isSpaceB (c : Char) : Bool :=
  c == ' ' || c == '\t' || c == '\n' || c == '\r'

/-- Python `str.strip()`: drop leading and trailing whitespace. -/
def stripChars (l : List Char) : List Char :=
  ((l.dropWhile isSpaceB).reverse.dropWhile isSpaceB).reverse

/-- Helper for `splitWS`: `acc` holds the current token, reversed. -/
def splitWSAux : List Char → List Char → List (List Char)
  | [], acc => if acc.isEmpty then [] else [acc.reverse]
  | c :: cs, acc =>
    if isSpaceB c then
      if acc.isEmpty then splitWSAux cs [] else acc.reverse :: splitWSAux cs []
    else splitWSAux cs (c :: acc)

/-- Python `str.split()` with no argument: split on whitespace runs,
discarding empty fields. -/
def splitWS (l : List Char) : List (List Char) := splitWSAux l []

/-- Helper for `splitColon`. -/
def splitColonAux : List Char → List Char → List (List Char)
  | [], acc => [acc.reverse]
  | c :: cs, acc =>
    if c == ':' then acc.reverse :: splitColonAux cs []
    else splitColonAux cs (c :: acc)

/-- Python `str.split(':')`: split on each colon, keeping empty fields. -/
def splitColon (l : List Char) : List (List Char) := splitColonAux l []

/-- Python `int(...)` on the non-negative identifiers appearing in this
file format: a non-empty string of decimal digits. -/
def parseNat? (l : List Char) : Option Nat :=
  if l.isEmpty then none
  else if l.all (fun c => c.isDigit) then
    some (l.foldl (fun n c => n * 10 + (c.toNat - 48)) 0)
  else none

/-- The memory map: the file bytes plus the current read position. -/
structure MM where
  data : List Char
  cursor : Nat
  deriving DecidableEq, Repr

/-- `m.readline()`: the bytes from the cursor up to the next newline; the
cursor moves past the newline (or to the end of the data).  The trailing
`'\n'` that Python includes in the returned bytes is omitted here; every
caller immediately `strip()`s it away. -/
def MM.readline (m : MM) : List Char × MM :=
  let tail := m.data.drop m.cursor
  let line := tail.takeWhile (fun c => c != '\n')
  (line, ⟨m.data, m.cursor + line.length + (if line.length < tail.length then 1 else 0)⟩)

/-- Helper for `rfind`: greatest index `i < n` with `data.get? i = some c`. -/
def rfindAux (data : List Char) (c : Char) : Nat → Option Nat
  | 0 => none
  | n + 1 => if data.get? n = some c then some n else rfindAux data c n

/-- `m.rfind(c, 0, stop)`: highest index of `c` in `data[0:stop]` (Python
clamps `stop` to the length), `none` for Python's `-1`. -/
def rfind (data : List Char) (c : Char) (stop : Nat) : Option Nat :=
  rfindAux data c (min stop data.length)

/-- `decode_fasta(m)`: read a header line and a sequence line from the
current position, check the header's first field starts with `'>'`, and
parse the identifier following the `'>'`. -/
def decode_fasta (m : MM) : Except Err (Nat × List Char × List Char × MM) :=
  let r1 := m.readline
  let r2 := r1.2.readline
  let header := stripChars r1.1
  let seq := stripChars r2.1
  match splitWS header with
  | [] => .error .indexOOB
  | p0 :: _ =>
    if p0.head? = some '>' then
      match parseNat? (p0.drop 1) with
      | some line_ID => .ok (line_ID, header, seq, r2.2)
      | none => .error .badInt
    else .error .malformedHeader

/-- `findleft(pos, m)`: seek to the nearest `'>'` strictly before `pos`
and decode the record there.  `m.rfind` returning `-1` makes the
subsequent `m.seek(-1)` raise `ValueError`. -/
def findleft (pos : Nat) (m : MM) : Except Err (Nat × Nat × List Char × List Char × MM) :=
  match rfind m.data '>' pos with
  | none => .error .seekOutOfRange
  | some p =>
    match decode_fasta ⟨m.data, p⟩ with
    | .ok (foundline, header, seq, m') => .ok (p, foundline, header, seq, m')
    | .error e => .error e

/-- The loop state of `linehunter`: the last anchored record offset, the
identifier/header/sequence last decoded, and the memory map. -/
structure LHState where
  pos : Nat
  foundline : Nat
  header : List Char
  seq : List Char
  m : MM
  deriving DecidableEq, Repr

/-- One iteration of the `linehunter` `while` body: linear scan when the
target is 1..9 records ahead, otherwise a density-extrapolated jump
`findleft(int(target * pos/foundline))`. -/
def lhStep (target : Nat) (st : LHState) : Except Err LHState :=
  if 1 ≤ target - st.foundline ∧ target - st.foundline < 10 then
    match decode_fasta st.m with
    | .ok (foundline, header, seq, m') => .ok ⟨st.pos, foundline, header, seq, m'⟩
    | .error e => .error e
  else
    if st.foundline = 0 then .error .divByZero
    else
      match findleft (target * st.pos / st.foundline) st.m with
      | .ok (pos, foundline, header, seq, m') => .ok ⟨pos, foundline, header, seq, m'⟩
      | .error e => .error e

/-- The `while foundline != target` loop of `linehunter`.  `fuel` is
`100 - jumps`: the source increments `jumps` after each body and raises
`IndexError` once `jumps > 100`, i.e. after the 101st body; here the
101st body runs at `fuel = 0` and then raises. -/
def lhLoop (target : Nat) : Nat → LHState → Except Err (Nat × List Char × List Char)
  | fuel, st =>
    if st.foundline = target then .ok (st.pos, st.header, st.seq)
    else
      match lhStep target st with
      | .error e => .error e
      | .ok st' =>
        match fuel with
        | 0 => .error (.notFound target)
        | f + 1 => lhLoop target f st'

/-- `linehunter(target, filename)`: anchor at the last record of the file
(`findleft(len(m))`), then run the search loop. -/
def linehunter (target : Nat) (file : List Char) : Except Err (Nat × List Char × List Char) :=
  match findleft file.length ⟨file, 0⟩ with
  | .error e => .error e
  | .ok (pos, foundline, header, seq, m) => lhLoop target 100 ⟨pos, foundline, header, seq, m⟩

/-- Resource bookkeeping for one `linehunter` call.  The source opens
`f = open(filename, 'r+')` and `m = mmap(...)`; `m.close()` runs only
after the loop exits normally, and `f` is never closed.  The two booleans
record whether the memory map, resp. the file handle, was released on the
taken exit path. -/
def linehunterResources (target : Nat) (file : List Char) :
    Except Err (Nat × List Char × List Char) × Bool × Bool :=
  match linehunter target file with
  | .ok r => (.ok r, true, false)
  | .error e => (.error e, false, false)

/-- `parse_link(text)`: exactly four colon-separated fields; the third is
the target identifier, the second and fourth are `'-'` for "reversed"
(anything else is "forward"). -/
def parse_link (text : List Char) : Except Err (Nat × Bool × Bool) :=
  match splitColon text with
  | [_bits0, bits1, bits2, bits3] =>
    match parseNat? bits2 with
    | some other => .ok (other, bits1 == ['-'], bits3 == ['-'])
    | none => .error .badInt
  | _ => .error .malformedLink

/-- The substitution of `str.maketrans('ATCGN', 'TAGCN')`: characters
outside the table are left unchanged (as `str.translate` does). -/
def complChar (c : Char) : Char :=
  if c = 'A' then 'T'
  else if c = 'T' then 'A'
  else if c = 'C' then 'G'
  else if c = 'G' then 'C'
  else if c = 'N' then 'N'
  else c

/-- `reverse_complement(sequence)`: substitute each symbol, then reverse
(`sequence.translate(complement)[::-1]`). -/
def reverse_complement (sequence : List Char) : List Char :=
  (sequence.map complChar).reverse

/-- The `Segment` class: an identifier together with the orientation it
was visited under, the raw header, and the (possibly reverse-complemented)
sequence.  The derived fields `length` and `name` of the source are pure
functions of `seq` resp. `ID` and are not stored. -/
structure Segment where
  ID : Nat
  flipped : Bool
  header : List Char
  seq : List Char
  deriving DecidableEq, Repr

mutual
/-- The value `(this_segment, tuple(branches))` returned by `buildtree`. -/
inductive Tree where
  | node : Segment → TreeList → Tree
/-- The tuple of child trees. -/
inductive TreeList where
  | nil : TreeList
  | cons : Tree → TreeList → TreeList
end

/-- The conditional reassignment `if flip_flag: seq = reverse_complement(seq)`
at the top of `buildtree`. -/
def flipseq (flip_flag : Bool) (seq : List Char) : List Char :=
  if flip_flag then reverse_complement seq else seq

/-- A candidate link token: a header field beginning with `"L:"`. -/
def isLinkToken (part : List Char) : Bool :=
  match part with
  | 'L' :: ':' :: _ => true
  | _ => false

/-- The `for link in link_data` loop body of `buildtree`: parse each link
token in order; for a link whose `reverse_this` equals the current flip
flag, recurse (the recursive call is abstracted as `rec`, instantiated
with `buildtree` at one smaller gas below) and append the resulting tree. -/
def buildlinks (rec : List Segment → Nat → Bool → Nat → Except Err (Tree × List Segment))
    (segments : List Segment) (links : List (List Char)) (flip_flag : Bool)
    (childDepth : Nat) : Except Err (TreeList × List Segment) :=
  match links with
  | [] => .ok (.nil, segments)
  | link :: rest =>
    match parse_link link with
    | .error e => .error e
    | .ok (other_ID, reverse_this, reverse_other) =>
      if reverse_this = flip_flag then
        match rec segments other_ID reverse_other childDepth with
        | .error e => .error e
        | .ok (tr, segments') =>
          match buildlinks rec segments' rest flip_flag childDepth with
          | .error e => .error e
          | .ok (trs, segments'') => .ok (.cons tr trs, segments'')
      else buildlinks rec segments rest flip_flag childDepth

/-- `buildtree` with the depth bound carried as `gas = maxdepth - depth`:
the source's guard `depth < maxdepth` is `0 < gas`, and the recursive
call at `depth + 1` has gas one less (`buildtree` below restores the
source's `(maxdepth, depth)` signature).  The node's Segment is appended
to the flat list before any link is processed. -/
def buildtreeAux (file : List Char) :
    Nat → List Segment → Nat → Bool → Nat → Except Err (Tree × List Segment)
  | gas, segments, ID, flip_flag, depth =>
    match linehunter ID file with
    | .error e => .error e
    | .ok (_, text, seq0) =>
      let seq := flipseq flip_flag seq0
      let this_segment : Segment := ⟨ID, flip_flag, text, seq⟩
      let segments1 := segments ++ [this_segment]
      match splitWS text with
      | [] => .error .indexOOB
      | p0 :: _ =>
        if p0.head? = some '>' then
          -- the source's `if link_data and (depth < maxdepth)`: first the
          -- truthiness of `link_data`, then the depth bound (`0 < gas`)
          match (splitWS text).filter isLinkToken with
          | [] => .ok (.node this_segment .nil, segments1)
          | l :: ls =>
            match gas with
            | 0 => .ok (.node this_segment .nil, segments1)
            | g + 1 =>
              match buildlinks (buildtreeAux file g) segments1 (l :: ls) flip_flag (depth + 1) with
              | .error e => .error e
              | .ok (branches, segments2) => .ok (.node this_segment branches, segments2)
        else .error .malformedHeader

/-- `buildtree(filename, segments, ID, maxdepth, flip_flag, depth)`. -/
def buildtree (file : List Char) (segments : List Segment) (ID maxdepth : Nat)
    (flip_flag : Bool) (depth : Nat) : Except Err (Tree × List Segment) :=
  buildtreeAux file (maxdepth - depth) segments ID flip_flag depth

/-- Modelled from the spec's traversal rule, for comparison with
`buildtree`: follow, in order, exactly the links whose this-side
orientation equals the current node's orientation `o`; each followed link
is expanded by a recursive `buildtree` call at the link's other-side
orientation and at depth one greater than the current node's. -/
def specFollow (file : List Char) (segments : List Segment) (links : List (List Char))
    (o : Bool) (maxdepth depth : Nat) : Except Err (TreeList × List Segment) :=
  match links with
  | [] => .ok (.nil, segments)
  | link :: rest =>
    match parse_link link with
    | .error e => .error e
    | .ok (other_ID, this_side_reversed, other_side_reversed) =>
      if this_side_reversed = o then
        match buildtree file segments other_ID maxdepth other_side_reversed (depth + 1) with
        | .error e => .error e
        | .ok (tr, segments') =>
          match specFollow file segments' rest o maxdepth depth with
          | .error e => .error e
          | .ok (trs, segments'') => .ok (.cons tr trs, segments'')
      else specFollow file segments rest o maxdepth depth

mutual
/-- Depth-first preorder listing of a tree's segments: the node's own
segment first, then the segments of its subtrees in sibling order. -/
def preorder : Tree → List Segment
  | .node s ts => s :: preorderList ts
/-- Preorder listing of a list of sibling subtrees, in order. -/
def preorderList : TreeList → List Segment
  | .nil => []
  | .cons t ts => preorder t ++ preorderList ts
end

/-- One insertion into a Python dict modelled as an association list:
an existing key keeps its position and has its value overwritten, a new
key is appended. -/
def dictInsert (d : List (Nat × Segment)) (k : Nat) (v : Segment) : List (Nat × Segment) :=
  if d.any (fun p => p.1 == k) then
    d.map (fun p => if p.1 == k then (k, v) else p)
  else d ++ [(k, v)]

/-- The driver's `{segment.ID: segment for segment in segments}`: insert
every segment in list order, later insertions overwriting earlier ones. -/
def dedupe (segments : List Segment) : List (Nat × Segment) :=
  segments.foldl (fun d s => dictInsert d s.ID s) []

/-- Dict lookup in the association-list model. -/
def dictGet? (d : List (Nat × Segment)) (k : Nat) : Option Segment :=
  (d.find? (fun p => p.1 == k)).map (fun p => p.2)

/-! ## Wellformed input files

`linehunter` operates on raw bytes; the claims about it quantify over
"files of two-line records".  A file is modelled as the rendering of a
list of records, each a header line (starting with `'>'` immediately
followed by the decimal identifier) and a sequence line. -/

/-- One record of the input file. -/
structure FRecord where
  rid : Nat
  header : List Char
  seq : List Char
  deriving DecidableEq, Repr

/-- The two lines of a record as stored in the file. -/
def render (r : FRecord) : List Char :=
  r.header ++ '\n' :: r.seq ++ ['\n']

/-- The whole file: the records' renderings concatenated. -/
def renderFile (rs : List FRecord) : List Char :=
  match rs with
  | [] => []
  | r :: rest => render r ++ renderFile rest

/-- Byte offset of the start of each record in `renderFile`. -/
def recStarts (rs : List FRecord) : List Nat :=
  match rs with
  | [] => []
  | r :: rest => 0 :: (recStarts rest).map (fun s => s + (render r).length)

/-- Wellformedness of a single record: the header's first field is `'>'`
followed by the decimal identifier, neither line contains a newline or an
interior `'>'`, and neither line carries leading/trailing whitespace
(so that `strip()` returns it unchanged). -/
def recOK (r : FRecord) : Bool :=
  let tok := r.header.takeWhile (fun c => !(isSpaceB c))
  (r.header.head? == some '>') &&
  (parseNat? (tok.drop 1) == some r.rid) &&
  r.header.all (fun c => c != '\n') &&
  (r.header.drop 1).all (fun c => c != '>') &&
  (stripChars r.header == r.header) &&
  r.seq.all (fun c => c != '\n' && c != '>') &&
  (stripChars r.seq == r.seq)

/-- Wellformedness of a file of records. -/
def FileOK (rs : List FRecord) : Bool := rs.all recOK

/-- The identifiers stored in the file, in file order. -/
def fileIds (rs : List FRecord) : List Nat := rs.map (fun r => r.rid)

/-- A header accepted by the checks of `decode_fasta` and `buildtree`:
its whitespace split is non-empty and the first field starts with `'>'`. -/
def HeaderOK (h : List Char) : Prop :=
  ∃ tok rest, splitWS h = tok :: rest ∧ tok.head? = some '>'

/-- Invariant of the `linehunter` loop over a wellformed file: the map
holds the file's bytes, the cursor sits at a record start or at the end
of file, and the decoded identifier/header/sequence are those of some
record of the file. -/
def GoodSt (rs : List FRecord) (st : LHState) : Prop :=
  st.m.data = renderFile rs ∧
  (st.m.cursor ∈ recStarts rs ∨ st.m.cursor = (renderFile rs).length) ∧
  ∃ r, r ∈ rs ∧ r.rid = st.foundline ∧ st.header = r.header ∧ st.seq = r.seq

/-! ## Concrete example files used by counterexamples and witnesses -/

/-- A one-record file whose record has identifier `0`. -/
def exF0 : List FRecord := [⟨0, ['>', '0'], ['A', 'A']⟩]

/-- A three-record file with strictly increasing identifiers `1, 11, 12`
whose first record is much longer than the others, so that the density
extrapolation of `linehunter` first lands on record `1` and then jumps
to offset `0`. -/
def exF1 : List FRecord :=
  [⟨1, ['>', '1'], List.replicate 73 'A'⟩,
   ⟨11, ['>', '1', '1'], ['C', 'C']⟩,
   ⟨12, ['>', '1', '2'], ['G', 'G']⟩]

/-- A one-record file with identifier `1`. -/
def exF2 : List FRecord := [⟨1, ['>', '1'], ['A', 'A']⟩]

/-- A three-record file whose first record carries two link tokens with
opposite this-side orientations. -/
def exF3 : List FRecord :=
  [⟨1, (">1 L:+:2:- L:-:3:-").toList, ['A', 'A', 'A', 'A']⟩,
   ⟨2, ['>', '2'], ['C', 'C', 'C', 'C']⟩,
   ⟨3, ['>', '3'], ['G', 'G', 'G', 'G']⟩]

/-! ## Basic scanning lemmas -/

theorem takeWhile_prefix (p : Char → Bool) (xs : List Char) (y : Char) (rest : List Char)
    (hxs : ∀ c ∈ xs, p c = true) (hy : p y = false) :
    (xs ++ y :: rest).takeWhile p = xs := by
  induction xs with
  | nil => simp [List.takeWhile, hy]
  | cons a as ih =>
    have ha : p a = true := hxs a (by simp)
    simp only [List.cons_append, List.takeWhile, ha]
    exact congrArg (List.cons a) (ih (fun c hc => hxs c (List.mem_cons_of_mem a hc)))

theorem readline_spec (data : List Char) (cur : Nat) (xs rest : List Char)
    (hdrop : data.drop cur = xs ++ '\n' :: rest) (hxs : ∀ c ∈ xs, c ≠ '\n') :
    MM.readline ⟨data, cur⟩ = (xs, ⟨data, cur + xs.length + 1⟩) := by
  have htake : (data.drop cur).takeWhile (fun c => c != '\n') = xs := by
    rw [hdrop]
    exact takeWhile_prefix _ xs '\n' rest
      (fun c hc => by simp [bne_iff_ne, hxs c hc]) (by simp)
  have hlt : xs.length < (data.drop cur).length := by
    rw [hdrop]
    simp only [List.length_append, List.length_cons]
    omega
  simp only [MM.readline, htake, if_pos hlt]

theorem readline_eof (data : List Char) (cur : Nat) (hdrop : data.drop cur = []) :
    MM.readline ⟨data, cur⟩ = ([], ⟨data, cur⟩) := by
  simp [MM.readline, hdrop]

theorem splitWSAux_head (l : List Char) :
    ∀ acc : List Char, acc ≠ [] →
      ∃ rest, splitWSAux l acc =
        (acc.reverse ++ l.takeWhile (fun c => !(isSpaceB c))) :: rest := by
  induction l with
  | nil =>
    intro acc hacc
    refine ⟨[], ?_⟩
    simp [splitWSAux, List.isEmpty_iff, hacc]
  | cons c cs ih =>
    intro acc hacc
    by_cases hc : isSpaceB c = true
    · refine ⟨splitWSAux cs [], ?_⟩
      simp [splitWSAux, hc, List.isEmpty_iff, hacc, List.takeWhile]
    · obtain ⟨rest, hrest⟩ := ih (c :: acc) (by simp)
      refine ⟨rest, ?_⟩
      simp only [splitWSAux, hc]
      rw [if_neg (by simp [hc])] at *
      rw [hrest]
      simp [List.takeWhile, hc]

theorem splitWS_head (h : List Char) (c : Char) (t : List Char)
    (hh : h = c :: t) (hc : isSpaceB c = false) :
    ∃ rest, splitWS h = (h.takeWhile (fun c => !(isSpaceB c))) :: rest := by
  subst hh
  obtain ⟨rest, hrest⟩ := splitWSAux_head t [c] (by simp)
  refine ⟨rest, ?_⟩
  simp only [splitWS, splitWSAux, hc]
  rw [if_neg (by simp [hc])]
  rw [hrest]
  simp [List.takeWhile, hc]

/-! ## Wellformed files: record boundaries and decoding -/

theorem recOK_props (r : FRecord) (h : recOK r = true) :
    r.header.head? = some '>' ∧
    parseNat? ((r.header.takeWhile (fun c => !(isSpaceB c))).drop 1) = some r.rid ∧
    (∀ c ∈ r.header, c ≠ '\n') ∧
    (∀ c ∈ r.header.drop 1, c ≠ '>') ∧
    stripChars r.header = r.header ∧
    (∀ c ∈ r.seq, c ≠ '\n' ∧ c ≠ '>') ∧
    stripChars r.seq = r.seq := by
  simp only [recOK, Bool.and_eq_true, beq_iff_eq, List.all_eq_true, bne_iff_ne] at h
  obtain ⟨⟨⟨⟨⟨⟨h1, h2⟩, h3⟩, h4⟩, h5⟩, h6⟩, h7⟩ := h
  refine ⟨h1, h2, h3, h4, h5, ?_, h7⟩
  intro c hc
  have := h6 c hc
  simp only [Bool.and_eq_true, bne_iff_ne] at this
  exact this

theorem recOK_of_mem (rs : List FRecord) (hwf : FileOK rs = true) (r : FRecord)
    (hr : r ∈ rs) : recOK r = true := by
  simp only [FileOK, List.all_eq_true] at hwf
  exact hwf r hr

theorem render_length (r : FRecord) :
    (render r).length = r.header.length + r.seq.length + 2 := by
  simp only [render, List.length_append, List.length_cons, List.length_nil]
  omega

theorem header_shape (r : FRecord) (hr : recOK r = true) :
    ∃ t, r.header = '>' :: t := by
  obtain ⟨h1, -⟩ := recOK_props r hr
  cases hh : r.header with
  | nil => rw [hh] at h1; simp at h1
  | cons c t =>
    rw [hh] at h1
    simp only [List.head?_cons, Option.some.injEq] at h1
    exact ⟨t, by rw [h1]⟩

theorem render_gt_iff (r : FRecord) (hr : recOK r = true) (i : Nat) :
    ((render r).get? i = some '>') ↔ i = 0 := by
  obtain ⟨t, ht⟩ := header_shape r hr
  obtain ⟨-, -, -, h4, -, h6, -⟩ := recOK_props r hr
  have hrw : render r = '>' :: (t ++ '\n' :: r.seq ++ ['\n']) := by
    simp [render, ht]
  constructor
  · intro hi
    by_contra hne
    obtain ⟨j, rfl⟩ : ∃ j, i = j + 1 := ⟨i - 1, by omega⟩
    rw [hrw] at hi
    simp only [List.get?_cons_succ] at hi
    have hmem := List.get?_mem hi
    simp only [List.mem_append, List.mem_cons, List.mem_singleton] at hmem
    rcases hmem with (hmem | hmem) | hmem
    · exact h4 '>' (by rw [ht]; exact hmem) rfl
    · rcases hmem with hmem | hmem
      · exact absurd hmem.symm (by decide)
      · exact (h6 '>' hmem).2 rfl
    · exact absurd hmem (by decide)
  · intro hi
    subst hi
    rw [hrw]
    rfl

theorem recStarts_pos (rs : List FRecord) (r : FRecord) (i : Nat)
    (hi : i ∈ (recStarts rs).map (fun s => s + (render r).length)) :
    (render r).length ≤ i := by
  simp only [List.mem_map] at hi
  obtain ⟨s, -, rfl⟩ := hi
  omega

theorem renderFile_gt_iff (rs : List FRecord) (hwf : FileOK rs = true) (i : Nat) :
    ((renderFile rs).get? i = some '>') ↔ i ∈ recStarts rs := by
  induction rs generalizing i with
  | nil => simp [renderFile, recStarts]
  | cons r rest ih =>
    have hr : recOK r = true := recOK_of_mem _ hwf r (by simp)
    have hwf' : FileOK rest = true := by
      simp only [FileOK, List.all_eq_true] at hwf ⊢
      exact fun x hx => hwf x (by simp [hx])
    have hlen : 2 ≤ (render r).length := by rw [render_length]; omega
    simp only [renderFile, recStarts]
    by_cases hi : i < (render r).length
    · rw [List.get?_append hi, render_gt_iff r hr]
      constructor
      · intro h0; simp [h0]
      · intro hmem
        rcases List.mem_cons.mp hmem with h0 | h0
        · exact h0
        · have := recStarts_pos rest r i h0
          omega
    · push_neg at hi
      rw [List.get?_append_right hi, ih hwf']
      constructor
      · intro hmem
        apply List.mem_cons_of_mem
        simp only [List.mem_map]
        exact ⟨i - (render r).length, hmem, by omega⟩
      · intro hmem
        rcases List.mem_cons.mp hmem with h0 | h0
        · omega
        · simp only [List.mem_map] at h0
          obtain ⟨s, hs, rfl⟩ := h0
          simpa using hs

theorem start_decomp (rs : List FRecord) (p : Nat) (hp : p ∈ recStarts rs) :
    ∃ r tail, r ∈ rs ∧ (renderFile rs).drop p = render r ++ renderFile tail ∧
      (p + (render r).length ∈ recStarts rs ∨
        p + (render r).length = (renderFile rs).length) := by
  induction rs generalizing p with
  | nil => simp [recStarts] at hp
  | cons r0 rest ih =>
    simp only [recStarts, List.mem_cons] at hp
    rcases hp with h0 | hmem
    · subst h0
      refine ⟨r0, rest, by simp, by simp [renderFile], ?_⟩
      cases rest with
      | nil =>
        right
        simp [renderFile]
      | cons r1 rest' =>
        left
        simp only [recStarts, List.mem_cons, List.mem_map, Nat.zero_add]
        right
        exact ⟨0, by simp [recStarts], by omega⟩
    · simp only [List.mem_map] at hmem
      obtain ⟨s, hs, rfl⟩ := hmem
      obtain ⟨r, tail, hrmem, hdrop, hnext⟩ := ih s hs
      refine ⟨r, tail, by simp [hrmem], ?_, ?_⟩
      · have : (renderFile (r0 :: rest)).drop (s + (render r0).length) =
            (renderFile rest).drop s := by
          show (render r0 ++ renderFile rest).drop (s + (render r0).length) = _
          rw [Nat.add_comm s (render r0).length, ← List.drop_drop, List.drop_left]
        rw [this, hdrop]
      · rcases hnext with hnext | hnext
        · left
          simp only [recStarts, List.mem_cons, List.mem_map]
          right
          exact ⟨s + (render r).length, hnext, by omega⟩
        · right
          show _ = (render r0 ++ renderFile rest).length
          rw [List.length_append]
          omega

/-! ## rfind -/

theorem rfindAux_some (data : List Char) (c : Char) :
    ∀ n p, rfindAux data c n = some p → p < n ∧ data.get? p = some c := by
  intro n
  induction n with
  | zero => intro p h; simp [rfindAux] at h
  | succ m ih =>
    intro p h
    simp only [rfindAux] at h
    by_cases hm : data.get? m = some c
    · rw [if_pos hm] at h
      have hp : m = p := Option.some.inj h
      subst hp
      exact ⟨Nat.lt_succ_self m, hm⟩
    · rw [if_neg hm] at h
      obtain ⟨h1, h2⟩ := ih p h
      exact ⟨Nat.lt_succ_of_lt h1, h2⟩

theorem rfind_some (data : List Char) (c : Char) (stop p : Nat)
    (h : rfind data c stop = some p) : p < data.length ∧ data.get? p = some c := by
  obtain ⟨h1, h2⟩ := rfindAux_some data c (min stop data.length) p h
  exact ⟨lt_of_lt_of_le h1 (Nat.min_le_right _ _), h2⟩

/-! ## decode_fasta over a wellformed file -/

theorem stripChars_nil : stripChars [] = [] := rfl

theorem splitWS_nil : splitWS [] = [] := rfl

theorem decode_at_end (data : List Char) (cur : Nat) (hcur : data.length ≤ cur) :
    decode_fasta ⟨data, cur⟩ = .error .indexOOB := by
  have hdrop : data.drop cur = [] := List.drop_eq_nil_of_le hcur
  have h1 := readline_eof data cur hdrop
  simp only [decode_fasta, h1, stripChars_nil, splitWS_nil]

theorem decode_at_start (rs : List FRecord) (hwf : FileOK rs = true)
    (r : FRecord) (tail : List FRecord) (cur : Nat) (hr : r ∈ rs)
    (hdrop : (renderFile rs).drop cur = render r ++ renderFile tail) :
    decode_fasta ⟨renderFile rs, cur⟩ =
      .ok (r.rid, r.header, r.seq, ⟨renderFile rs, cur + (render r).length⟩) := by
  have hrOK := recOK_of_mem rs hwf r hr
  obtain ⟨h1, h2, h3, h4, h5, h6, h7⟩ := recOK_props r hrOK
  obtain ⟨t, ht⟩ := header_shape r hrOK
  set file := renderFile rs with hfile
  have hdrop1 : file.drop cur = r.header ++ '\n' :: (r.seq ++ '\n' :: renderFile tail) := by
    rw [hdrop]
    simp [render]
  have hread1 : MM.readline ⟨file, cur⟩ =
      (r.header, ⟨file, cur + r.header.length + 1⟩) :=
    readline_spec file cur r.header _ hdrop1 h3
  have hdrop2 : file.drop (cur + r.header.length + 1) =
      r.seq ++ '\n' :: renderFile tail := by
    have : cur + r.header.length + 1 = cur + (r.header.length + 1) := by omega
    rw [this, ← List.drop_drop, hdrop1]
    have hsplit : r.header ++ '\n' :: (r.seq ++ '\n' :: renderFile tail) =
        (r.header ++ ['\n']) ++ (r.seq ++ '\n' :: renderFile tail) := by
      simp
    rw [hsplit]
    have hlen : r.header.length + 1 = (r.header ++ ['\n']).length := by simp
    rw [hlen, List.drop_left]
  have hread2 : MM.readline ⟨file, cur + r.header.length + 1⟩ =
      (r.seq, ⟨file, cur + r.header.length + 1 + r.seq.length + 1⟩) :=
    readline_spec file _ r.seq _ hdrop2 (fun c hc => (h6 c hc).1)
  have hsp : isSpaceB '>' = false := rfl
  obtain ⟨rest, hsplit⟩ := splitWS_head r.header '>' t ht hsp
  have htok : (r.header.takeWhile (fun c => !(isSpaceB c))).head? = some '>' := by
    rw [ht]
    simp [List.takeWhile, hsp]
  have hcur2 : cur + r.header.length + 1 + r.seq.length + 1 = cur + (render r).length := by
    rw [render_length]
    omega
  simp only [decode_fasta, hread1, hread2, h5, h7, hsplit, htok, if_pos rfl, h2, hcur2]
  rw [if_pos trivial]

theorem decode_good (rs : List FRecord) (hwf : FileOK rs = true) (cur : Nat)
    (hcur : cur ∈ recStarts rs ∨ cur = (renderFile rs).length)
    (n : Nat) (h s : List Char) (m' : MM)
    (hdec : decode_fasta ⟨renderFile rs, cur⟩ = .ok (n, h, s, m')) :
    (∃ r, r ∈ rs ∧ r.rid = n ∧ h = r.header ∧ s = r.seq) ∧
    m'.data = renderFile rs ∧
    (m'.cursor ∈ recStarts rs ∨ m'.cursor = (renderFile rs).length) := by
  rcases hcur with hstart | hend
  · obtain ⟨r, tail, hr, hdrop, hnext⟩ := start_decomp rs cur hstart
    rw [decode_at_start rs hwf r tail cur hr hdrop] at hdec
    simp only [Except.ok.injEq, Prod.mk.injEq] at hdec
    obtain ⟨h1, h2, h3, h4⟩ := hdec
    refine ⟨⟨r, hr, h1, h2.symm, h3.symm⟩, ?_, ?_⟩
    · rw [← h4]
    · rw [← h4]
      exact hnext
  · rw [decode_at_end _ _ (le_of_eq hend.symm)] at hdec
    cases hdec

theorem findleft_good (rs : List FRecord) (hwf : FileOK rs = true) (q : Nat) (m : MM)
    (hdata : m.data = renderFile rs)
    (p n : Nat) (h s : List Char) (m' : MM)
    (hfl : findleft q m = .ok (p, n, h, s, m')) :
    (∃ r, r ∈ rs ∧ r.rid = n ∧ h = r.header ∧ s = r.seq) ∧
    m'.data = renderFile rs ∧
    (m'.cursor ∈ recStarts rs ∨ m'.cursor = (renderFile rs).length) := by
  unfold findleft at hfl
  split at hfl
  · cases hfl
  · rename_i pp hrf
    obtain ⟨hlt, hchar⟩ := rfind_some m.data '>' q pp hrf
    have hpp : pp ∈ recStarts rs := by
      rw [← renderFile_gt_iff rs hwf pp, ← hdata]
      exact hchar
    split at hfl
    · rename_i nn hh ss mm hdec
      simp only [Except.ok.injEq, Prod.mk.injEq] at hfl
      obtain ⟨-, hn, hh2, hs2, hm2⟩ := hfl
      rw [hdata] at hdec
      obtain ⟨hrec, hdata', hcur'⟩ := decode_good rs hwf pp (Or.inl hpp) nn hh ss mm hdec
      subst hn hh2 hs2 hm2
      exact ⟨hrec, hdata', hcur'⟩
    · cases hfl

theorem lhStep_good (rs : List FRecord) (hwf : FileOK rs = true) (target : Nat)
    (st st' : LHState) (hg : GoodSt rs st) (hstep : lhStep target st = .ok st') :
    GoodSt rs st' := by
  obtain ⟨hdata, hcur, r0, hr0, hrid, hh, hs⟩ := hg
  unfold lhStep at hstep
  by_cases hcond : 1 ≤ target - st.foundline ∧ target - st.foundline < 10
  · rw [if_pos hcond] at hstep
    cases hdec : decode_fasta st.m with
    | error e => rw [hdec] at hstep; cases hstep
    | ok v =>
      obtain ⟨n, h, s, m'⟩ := v
      rw [hdec] at hstep
      have hstm : st.m = ⟨renderFile rs, st.m.cursor⟩ := by
        cases hm : st.m with
        | mk d c =>
          rw [hm] at hdata
          simp only at hdata
          simp [hdata]
      rw [hstm] at hdec
      obtain ⟨hrec, hdata', hcur'⟩ := decode_good rs hwf st.m.cursor hcur n h s m' hdec
      cases hstep
      exact ⟨hdata', hcur', hrec⟩
  · rw [if_neg hcond] at hstep
    by_cases h0 : st.foundline = 0
    · rw [if_pos h0] at hstep; cases hstep
    · rw [if_neg h0] at hstep
      cases hfl : findleft (target * st.pos / st.foundline) st.m with
      | error e => rw [hfl] at hstep; cases hstep
      | ok v =>
        obtain ⟨p, n, h, s, m'⟩ := v
        rw [hfl] at hstep
        obtain ⟨hrec, hdata', hcur'⟩ :=
          findleft_good rs hwf _ st.m hdata p n h s m' hfl
        cases hstep
        exact ⟨hdata', hcur', hrec⟩

theorem lhLoop_eq (target fuel : Nat) (st : LHState) :
    lhLoop target fuel st =
      if st.foundline = target then .ok (st.pos, st.header, st.seq)
      else
        match lhStep target st with
        | .error e => .error e
        | .ok st' =>
          match fuel with
          | 0 => .error (.notFound target)
          | f + 1 => lhLoop target f st' :=
  lhLoop.eq_1 target fuel st

theorem lhLoop_zero (target : Nat) (st : LHState) :
    lhLoop target 0 st =
      if st.foundline = target then .ok (st.pos, st.header, st.seq)
      else
        match lhStep target st with
        | .error e => .error e
        | .ok _ => .error (.notFound target) := by
  rw [lhLoop_eq]

theorem lhLoop_succ (target f : Nat) (st : LHState) :
    lhLoop target (f + 1) st =
      if st.foundline = target then .ok (st.pos, st.header, st.seq)
      else
        match lhStep target st with
        | .error e => .error e
        | .ok st' => lhLoop target f st' := by
  rw [lhLoop_eq]

theorem lhLoop_ok (rs : List FRecord) (hwf : FileOK rs = true) (target : Nat) :
    ∀ fuel st p h s, GoodSt rs st → lhLoop target fuel st = .ok (p, h, s) →
      ∃ r, r ∈ rs ∧ r.rid = target ∧ h = r.header ∧ s = r.seq := by
  intro fuel
  induction fuel with
  | zero =>
    intro st p h s hg hloop
    rw [lhLoop_eq] at hloop
    by_cases hft : st.foundline = target
    · rw [if_pos hft] at hloop
      simp only [Except.ok.injEq, Prod.mk.injEq] at hloop
      obtain ⟨-, hh, hs⟩ := hloop
      obtain ⟨-, -, r, hr, hrid, hh2, hs2⟩ := hg
      exact ⟨r, hr, by rw [hrid, hft], by rw [← hh, hh2], by rw [← hs, hs2]⟩
    · rw [if_neg hft] at hloop
      cases hstep : lhStep target st with
      | error e => rw [hstep] at hloop; cases hloop
      | ok st' => rw [hstep] at hloop; cases hloop
  | succ f ih =>
    intro st p h s hg hloop
    rw [lhLoop_eq] at hloop
    by_cases hft : st.foundline = target
    · rw [if_pos hft] at hloop
      simp only [Except.ok.injEq, Prod.mk.injEq] at hloop
      obtain ⟨-, hh, hs⟩ := hloop
      obtain ⟨-, -, r, hr, hrid, hh2, hs2⟩ := hg
      exact ⟨r, hr, by rw [hrid, hft], by rw [← hh, hh2], by rw [← hs, hs2]⟩
    · rw [if_neg hft] at hloop
      cases hstep : lhStep target st with
      | error e => rw [hstep] at hloop; cases hloop
      | ok st' =>
        rw [hstep] at hloop
        exact ih st' p h s (lhStep_good rs hwf target st st' hg hstep) hloop

/-- Success of `linehunter` over a wellformed file returns the header and
sequence of a record of the file whose identifier is the target. -/
theorem linehunter_good (rs : List FRecord) (hwf : FileOK rs = true) (target : Nat)
    (p : Nat) (h s : List Char)
    (hok : linehunter target (renderFile rs) = .ok (p, h, s)) :
    ∃ r, r ∈ rs ∧ r.rid = target ∧ h = r.header ∧ s = r.seq := by
  unfold linehunter at hok
  cases hfl : findleft (renderFile rs).length ⟨renderFile rs, 0⟩ with
  | error e => rw [hfl] at hok; cases hok
  | ok v =>
    obtain ⟨p0, fl0, h0, s0, m0⟩ := v
    rw [hfl] at hok
    obtain ⟨hrec, hdata, hcur⟩ :=
      findleft_good rs hwf (renderFile rs).length ⟨renderFile rs, 0⟩ rfl p0 fl0 h0 s0 m0 hfl
    exact lhLoop_ok rs hwf target 100 ⟨p0, fl0, h0, s0, m0⟩ p h s
      ⟨hdata, hcur, hrec⟩ hok

/-! ## Header wellformedness of returned records, and which errors carry
the target -/

theorem decode_cases (m : MM) :
    (∃ e, decode_fasta m = .error e ∧
      (e = .indexOOB ∨ e = .badInt ∨ e = .malformedHeader)) ∨
    (∃ n h s m', decode_fasta m = .ok (n, h, s, m') ∧ HeaderOK h) := by
  simp only [decode_fasta]
  split
  · exact Or.inl ⟨.indexOOB, rfl, Or.inl rfl⟩
  · rename_i p0 tail heq
    split
    · rename_i hgt
      split
      · rename_i id hid
        exact Or.inr ⟨id, _, _, _, rfl, ⟨p0, tail, heq, hgt⟩⟩
      · exact Or.inl ⟨.badInt, rfl, Or.inr (Or.inl rfl)⟩
    · exact Or.inl ⟨.malformedHeader, rfl, Or.inr (Or.inr rfl)⟩

theorem decode_header (m : MM) (n : Nat) (h s : List Char) (m' : MM)
    (hdec : decode_fasta m = .ok (n, h, s, m')) : HeaderOK h := by
  rcases decode_cases m with ⟨e, he, -⟩ | ⟨n', h', s', m'', hok, hhd⟩
  · rw [hdec] at he; cases he
  · rw [hdec] at hok
    simp only [Except.ok.injEq, Prod.mk.injEq] at hok
    obtain ⟨-, hh, -, -⟩ := hok
    subst hh
    exact hhd

theorem findleft_header (q : Nat) (m : MM) (p n : Nat) (h s : List Char) (m' : MM)
    (hfl : findleft q m = .ok (p, n, h, s, m')) : HeaderOK h := by
  unfold findleft at hfl
  split at hfl
  · cases hfl
  · split at hfl
    · rename_i nn hh ss mm hdec
      simp only [Except.ok.injEq, Prod.mk.injEq] at hfl
      obtain ⟨-, -, hh2, -, -⟩ := hfl
      rw [← hh2]
      exact decode_header _ nn hh ss mm hdec
    · cases hfl

theorem lhStep_header (target : Nat) (st st' : LHState)
    (hstep : lhStep target st = .ok st') : HeaderOK st'.header ∨ st'.header = st.header := by
  unfold lhStep at hstep
  split at hstep
  · split at hstep
    · rename_i n h s m' hdec
      cases hstep
      exact Or.inl (decode_header st.m n h s m' hdec)
    · cases hstep
  · split at hstep
    · cases hstep
    · split at hstep
      · rename_i p n h s m' hfl
        cases hstep
        exact Or.inl (findleft_header _ st.m p n h s m' hfl)
      · cases hstep

theorem lhLoop_header (target : Nat) :
    ∀ fuel st p h s, HeaderOK st.header → lhLoop target fuel st = .ok (p, h, s) →
      HeaderOK h := by
  intro fuel
  induction fuel with
  | zero =>
    intro st p h s hgood hloop
    rw [lhLoop_zero] at hloop
    split at hloop
    · simp only [Except.ok.injEq, Prod.mk.injEq] at hloop
      obtain ⟨-, hh, -⟩ := hloop
      rw [← hh]
      exact hgood
    · split at hloop <;> cases hloop
  | succ f ih =>
    intro st p h s hgood hloop
    rw [lhLoop_succ] at hloop
    split at hloop
    · simp only [Except.ok.injEq, Prod.mk.injEq] at hloop
      obtain ⟨-, hh, -⟩ := hloop
      rw [← hh]
      exact hgood
    · split at hloop
      · cases hloop
      · rename_i st' hstep
        rcases lhStep_header target st st' hstep with hh | hh
        · exact ih st' p h s hh hloop
        · exact ih st' p h s (hh ▸ hgood) hloop

/-- Any header returned by a successful `linehunter` passes the header
checks that `decode_fasta` (and hence `buildtree`) performs. -/
theorem linehunter_header (target : Nat) (file : List Char) (p : Nat) (h s : List Char)
    (hok : linehunter target file = .ok (p, h, s)) : HeaderOK h := by
  unfold linehunter at hok
  split at hok
  · cases hok
  · rename_i pos fl hd sq m hfl
    exact lhLoop_header target 100 ⟨pos, fl, hd, sq, m⟩ p h s
      (findleft_header file.length ⟨file, 0⟩ pos fl hd sq m hfl) hok

theorem decode_no_notFound (m : MM) (e : Err) (hdec : decode_fasta m = .error e)
    (u : Nat) : e ≠ .notFound u := by
  rcases decode_cases m with ⟨e', he', hkind⟩ | ⟨n', h', s', m'', hok, -⟩
  · rw [hdec] at he'
    have he2 : e = e' := by
      simp only [Except.error.injEq] at he'
      exact he'
    subst he2
    rcases hkind with h1 | h1 | h1 <;> subst h1 <;> exact fun hx => Err.noConfusion hx
  · rw [hdec] at hok; cases hok

theorem findleft_no_notFound (q : Nat) (m : MM) (e : Err)
    (hfl : findleft q m = .error e) (u : Nat) : e ≠ .notFound u := by
  unfold findleft at hfl
  split at hfl
  · cases hfl
    exact fun hx => Err.noConfusion hx
  · split at hfl
    · cases hfl
    · rename_i e2 hdec
      cases hfl
      exact decode_no_notFound _ _ hdec u

theorem lhStep_no_notFound (target : Nat) (st : LHState) (e : Err)
    (hstep : lhStep target st = .error e) (u : Nat) : e ≠ .notFound u := by
  unfold lhStep at hstep
  split at hstep
  · split at hstep
    · cases hstep
    · rename_i e2 hdec
      cases hstep
      exact decode_no_notFound _ _ hdec u
  · split at hstep
    · cases hstep
      exact fun hx => Err.noConfusion hx
    · split at hstep
      · cases hstep
      · rename_i e2 hfl
        cases hstep
        exact findleft_no_notFound _ st.m _ hfl u

theorem lhLoop_notFound (target : Nat) :
    ∀ fuel st u, lhLoop target fuel st = .error (.notFound u) → u = target := by
  intro fuel
  induction fuel with
  | zero =>
    intro st u hloop
    rw [lhLoop_zero] at hloop
    split at hloop
    · cases hloop
    · split at hloop
      · rename_i e hstep
        have he : e = Err.notFound u := by
          simp only [Except.error.injEq] at hloop
          exact hloop
        exact absurd he (lhStep_no_notFound target st e hstep u)
      · have : Err.notFound target = Err.notFound u := by
          simp only [Except.error.injEq] at hloop
          exact hloop
        exact (Err.notFound.inj this).symm
  | succ f ih =>
    intro st u hloop
    rw [lhLoop_succ] at hloop
    split at hloop
    · cases hloop
    · split at hloop
      · rename_i e hstep
        have he : e = Err.notFound u := by
          simp only [Except.error.injEq] at hloop
          exact hloop
        exact absurd he (lhStep_no_notFound target st e hstep u)
      · exact ih _ u hloop

/-- The `IndexError("Failed to find line", target)` raised on budget
exhaustion always carries the searched-for target. -/
theorem linehunter_notFound (target : Nat) (file : List Char) (u : Nat)
    (herr : linehunter target file = .error (.notFound u)) : u = target := by
  unfold linehunter at herr
  split at herr
  · rename_i e hfl
    cases herr
    exact absurd rfl (findleft_no_notFound file.length ⟨file, 0⟩ _ hfl u)
  · exact lhLoop_notFound target 100 _ u herr

/-- Strictly increasing identifiers make the record with a given
identifier unique. -/
theorem record_unique (rs : List FRecord) (hmono : List.Pairwise (· < ·) (fileIds rs))
    (r r' : FRecord) (hr : r ∈ rs) (hr' : r' ∈ rs) (heq : r.rid = r'.rid) : r = r' := by
  have hnd : (fileIds rs).Nodup := hmono.imp Nat.ne_of_lt
  exact List.inj_on_of_nodup_map hnd hr hr' heq

/-! ## Claim theorems for the locator -/

/-- C1 (corrected): over a wellformed file whose identifiers increase
strictly monotonically, whenever `locate(id)` returns at all, it returns
exactly the header line and sequence line stored for `id` (the loop
itself is capped at 100 further iterations by construction); the
counterexample below shows that success is not guaranteed for every such
file, so the claim holds only in this conditional form. -/
theorem C1_locate_partial_correct (rs : List FRecord) (target : Nat)
    (hwf : FileOK rs = true) (hmono : List.Pairwise (· < ·) (fileIds rs))
    (hpresent : target ∈ fileIds rs)
    (p : Nat) (h s : List Char)
    (hok : linehunter target (renderFile rs) = .ok (p, h, s)) :
    ∀ r, r ∈ rs → r.rid = target → h = r.header ∧ s = r.seq := by
  obtain ⟨r0, hr0, hrid, hh, hs⟩ := linehunter_good rs hwf target p h s hok
  intro r hr hrt
  have hrr : r = r0 := record_unique rs hmono r r0 hr hr0 (by rw [hrt, hrid])
  subst hrr
  exact ⟨hh, hs⟩

/-- C1 counterexample: `exF1` is a wellformed file with strictly
increasing identifiers `1, 11, 12`, the identifier `11` is present, yet
`locate(11)` does not return the stored record: the extrapolation lands
on record `1` at offset `0`, the next jump target is byte `0`,
`m.rfind` returns `-1`, and `m.seek(-1)` raises `ValueError`. -/
theorem C1_counterexample :
    FileOK exF1 = true ∧ List.Pairwise (· < ·) (fileIds exF1) ∧ 11 ∈ fileIds exF1 ∧
    linehunter 11 (renderFile exF1) = .error .seekOutOfRange := by
  refine ⟨by decide, by decide, by decide, by rfl⟩

/-- C1 witness: on the wellformed strictly increasing file `exF3`,
`locate(2)` succeeds and returns exactly the stored header and sequence
of record `2`. -/
theorem C1_witness :
    linehunter 2 (renderFile exF3) = .ok (0, ['>', '2'], ['C', 'C', 'C', 'C']) ∧
    ['>', '2'] = (⟨2, ['>', '2'], ['C', 'C', 'C', 'C']⟩ : FRecord).header ∧
    ['C', 'C', 'C', 'C'] = (⟨2, ['>', '2'], ['C', 'C', 'C', 'C']⟩ : FRecord).seq := by
  have happ := C1_locate_partial_correct exF3 2 (by decide) (by decide) (by decide)
    0 ['>', '2'] ['C', 'C', 'C', 'C'] (by rfl)
    ⟨2, ['>', '2'], ['C', 'C', 'C', 'C']⟩ (by decide) (by decide)
  exact ⟨by rfl, happ.1, happ.2⟩

/-- C3 (corrected): for a wellformed file and a target identifier not
present in it, `locate` never returns successfully, and whenever it fails
with the budget-exhaustion `NotFoundError` the error carries the searched
target; the counterexample below shows it can instead fail with another
error kind (reading past end of file), so "fails with NotFoundError" does
not hold unconditionally. -/
theorem C3_absent_never_succeeds (rs : List FRecord) (target : Nat)
    (hwf : FileOK rs = true) (habs : target ∉ fileIds rs) :
    (∃ e, linehunter target (renderFile rs) = .error e) ∧
    (∀ u, linehunter target (renderFile rs) = .error (.notFound u) → u = target) := by
  constructor
  · cases hres : linehunter target (renderFile rs) with
    | error e => exact ⟨e, rfl⟩
    | ok v =>
      obtain ⟨p, h, s⟩ := v
      obtain ⟨r, hr, hrid, -, -⟩ := linehunter_good rs hwf target p h s hres
      have : target ∈ fileIds rs := by
        rw [← hrid]
        exact List.mem_map_of_mem (fun r => r.rid) hr
      exact absurd this habs
  · intro u hu
    exact linehunter_notFound target _ u hu

/-- C3 counterexample: on the wellformed one-record file `exF2` the
absent target `2` (which is also greater than the maximum identifier `1`)
makes the linear-scan branch read at end of file, where the empty
header's `split()[0]` raises `IndexError: list index out of range` —
a different failure from the documented budget-exhaustion
`IndexError("Failed to find line", target)`. -/
theorem C3_counterexample :
    2 ∉ fileIds exF2 ∧ FileOK exF2 = true ∧
    linehunter 2 (renderFile exF2) = .error .indexOOB ∧
    Err.indexOOB ≠ Err.notFound 2 := by
  refine ⟨by decide, by decide, by rfl, by decide⟩

/-- C3 witness: instantiating the amended claim on `exF2` with absent
target `2`: the locate call fails with some error. -/
theorem C3_witness :
    (∃ e, linehunter 2 (renderFile exF2) = .error e) ∧
    (∀ u, linehunter 2 (renderFile exF2) = .error (.notFound u) → u = 2) :=
  C3_absent_never_succeeds exF2 2 (by decide) (by decide)

/-- C9 (confirmed): the division `pos/foundline` in the extrapolation
branch is unguarded: whenever the initial anchor (the last record of the
file) carries identifier `0` and the target is at least `10`, the very
first loop iteration takes the extrapolation branch and raises
`ZeroDivisionError` — an error kind not among the documented ones. -/
theorem C9_division_by_zero (file : List Char) (target : Nat) (p : Nat)
    (h s : List Char) (m' : MM)
    (hlast : findleft file.length ⟨file, 0⟩ = .ok (p, 0, h, s, m'))
    (ht : 10 ≤ target) :
    linehunter target file = .error .divByZero := by
  unfold linehunter
  rw [hlast]
  show lhLoop target 100 ⟨p, 0, h, s, m'⟩ = Except.error Err.divByZero
  rw [lhLoop_eq]
  have hne : ¬((⟨p, 0, h, s, m'⟩ : LHState).foundline = target) := by
    simp only
    omega
  rw [if_neg hne]
  have hstep : lhStep target ⟨p, 0, h, s, m'⟩ = .error .divByZero := by
    unfold lhStep
    rw [if_neg (show ¬(1 ≤ target - (⟨p, 0, h, s, m'⟩ : LHState).foundline ∧
        target - (⟨p, 0, h, s, m'⟩ : LHState).foundline < 10) by simp only; omega)]
    rw [if_pos rfl]
  rw [hstep]

/-- C9 witness: on the file `exF0`, whose single (hence last) record has
identifier `0`, searching for `10` raises the division-by-zero error. -/
theorem C9_witness : linehunter 10 (renderFile exF0) = .error .divByZero :=
  C9_division_by_zero (renderFile exF0) 10 0 ['>', '0'] ['A', 'A']
    ⟨renderFile exF0, 6⟩ (by rfl) (by decide)

/-! ## Claim theorems for the tree builder -/

/-- C4 (confirmed): a `buildtree` call at `depth = maxdepth` still creates
its Segment, appends exactly that one entry to the flat list, and returns
a node with an empty children tuple, regardless of any link tokens in the
header; with `maxdepth = 0` and `depth = 0` this is the claim's special
case. -/
theorem C4_depth_bound (file : List Char) (segs : List Segment) (ID maxdepth : Nat)
    (flip : Bool) (depth : Nat) (hd : depth = maxdepth)
    (p : Nat) (text seq0 : List Char)
    (hloc : linehunter ID file = .ok (p, text, seq0)) :
    buildtree file segs ID maxdepth flip depth =
      .ok (.node ⟨ID, flip, text, flipseq flip seq0⟩ .nil,
           segs ++ [⟨ID, flip, text, flipseq flip seq0⟩]) := by
  obtain ⟨tok, rest, hsp, hgt⟩ := linehunter_header ID file p text seq0 hloc
  have hgas : maxdepth - depth = 0 := by omega
  simp only [buildtree, hgas, buildtreeAux.eq_1, hloc, hsp]
  rw [if_pos hgt]
  cases hld : List.filter isLinkToken (tok :: rest) with
  | nil => rfl
  | cons l ls => rfl

/-- The per-link loop of `buildtree` with the recursion instantiated at
one smaller gas agrees with the spec-side `specFollow` recursion at the
parent's `(maxdepth, depth)`. -/
theorem buildlinks_spec (file : List Char) (g maxdepth depth : Nat)
    (hg : g = maxdepth - (depth + 1)) :
    ∀ (links : List (List Char)) (segs : List Segment) (flip : Bool),
      buildlinks (buildtreeAux file g) segs links flip (depth + 1) =
      specFollow file segs links flip maxdepth depth := by
  intro links
  induction links with
  | nil => intro segs flip; rfl
  | cons l rest ih =>
    intro segs flip
    cases hpl : parse_link l with
    | error e => simp only [buildlinks, specFollow, hpl]
    | ok v =>
      obtain ⟨other, rt, ro⟩ := v
      simp only [buildlinks, specFollow, hpl]
      by_cases hrt : rt = flip
      · rw [if_pos hrt, if_pos hrt]
        have hbt : buildtree file segs other maxdepth ro (depth + 1) =
            buildtreeAux file g segs other ro (depth + 1) := by
          unfold buildtree
          rw [← hg]
        rw [hbt]
        simp only [ih]
      · rw [if_neg hrt, if_neg hrt]
        exact ih segs flip

/-- C2 (confirmed): at a node with orientation `flip` whose header holds
link tokens and whose depth is below the bound, `buildtree` expands
exactly as `specFollow` prescribes: every link token is parsed in order,
a link is recursed into if and only if its this-side orientation equals
`flip`, and each recursive call runs at the link's other-side orientation
and at `depth + 1`. -/
theorem C2_orientation_filter (file : List Char) (segs : List Segment)
    (ID maxdepth depth : Nat) (flip : Bool) (p : Nat) (text seq0 : List Char)
    (hloc : linehunter ID file = .ok (p, text, seq0))
    (hd : depth < maxdepth)
    (hne : (splitWS text).filter isLinkToken ≠ []) :
    buildtree file segs ID maxdepth flip depth =
      match specFollow file
          (segs ++ [⟨ID, flip, text, flipseq flip seq0⟩])
          ((splitWS text).filter isLinkToken) flip maxdepth depth with
      | .error e => .error e
      | .ok (branches, segments2) =>
        .ok (.node ⟨ID, flip, text, flipseq flip seq0⟩ branches,
             segments2) := by
  obtain ⟨tok, rest, hsp, hgt⟩ := linehunter_header ID file p text seq0 hloc
  obtain ⟨l, ls, hld⟩ := List.exists_cons_of_ne_nil hne
  obtain ⟨g, hgas⟩ : ∃ g, maxdepth - depth = g + 1 := ⟨maxdepth - depth - 1, by omega⟩
  have hg : g = maxdepth - (depth + 1) := by omega
  simp only [buildtree, hgas, buildtreeAux.eq_1, hloc, hsp]
  rw [if_pos hgt]
  rw [hsp] at hld
  rw [hld]
  simp only [buildlinks_spec file g maxdepth depth hg]

/-- C4 witness: building from record `1` of `exF3` with `maxdepth = 0`
yields the root Segment with an empty children tuple and a singleton flat
list, even though the root's header carries two link tokens. -/
theorem C4_witness :
    buildtree (renderFile exF3) [] 1 0 false 0 =
      .ok (.node ⟨1, false, (">1 L:+:2:- L:-:3:-").toList,
            flipseq false ['A', 'A', 'A', 'A']⟩ .nil,
           [⟨1, false, (">1 L:+:2:- L:-:3:-").toList,
            flipseq false ['A', 'A', 'A', 'A']⟩]) :=
  C4_depth_bound (renderFile exF3) [] 1 0 false 0 rfl 0
    (">1 L:+:2:- L:-:3:-").toList ['A', 'A', 'A', 'A'] (by rfl)

/-- C2 witness: expanding record `1` of `exF3` (two link tokens with
opposite this-side orientations) at `flip = false`, `maxdepth = 1`,
`depth = 0` agrees with the spec-side recursion over its link tokens. -/
theorem C2_witness :
    buildtree (renderFile exF3) [] 1 1 false 0 =
      match specFollow (renderFile exF3)
          ([] ++ [⟨1, false, (">1 L:+:2:- L:-:3:-").toList,
            flipseq false ['A', 'A', 'A', 'A']⟩])
          ((splitWS (">1 L:+:2:- L:-:3:-").toList).filter isLinkToken)
          false 1 0 with
      | .error e => .error e
      | .ok (branches, segments2) =>
        .ok (.node ⟨1, false, (">1 L:+:2:- L:-:3:-").toList,
              flipseq false ['A', 'A', 'A', 'A']⟩ branches,
             segments2) :=
  C2_orientation_filter (renderFile exF3) [] 1 1 0 false 0
    (">1 L:+:2:- L:-:3:-").toList ['A', 'A', 'A', 'A'] (by rfl) (by decide) (by decide)

/-! ## The flat list is extended in depth-first preorder -/

theorem preorder_node (s : Segment) (ts : TreeList) :
    preorder (.node s ts) = s :: preorderList ts := rfl

theorem preorderList_nil : preorderList .nil = [] := rfl

theorem preorderList_cons (t : Tree) (ts : TreeList) :
    preorderList (.cons t ts) = preorder t ++ preorderList ts := rfl

theorem buildlinks_preorder (file : List Char) (g : Nat)
    (ihgas : ∀ segs ID flip depth tr segs2,
      buildtreeAux file g segs ID flip depth = .ok (tr, segs2) →
      segs2 = segs ++ preorder tr) :
    ∀ (links : List (List Char)) (segs : List Segment) (flip : Bool) (d : Nat)
      (trs : TreeList) (segsOut : List Segment),
      buildlinks (buildtreeAux file g) segs links flip d = .ok (trs, segsOut) →
      segsOut = segs ++ preorderList trs := by
  intro links
  induction links with
  | nil =>
    intro segs flip d trs segsOut h
    simp only [buildlinks] at h
    simp only [Except.ok.injEq, Prod.mk.injEq] at h
    obtain ⟨h1, h2⟩ := h
    subst h1 h2
    simp [preorderList_nil]
  | cons l rest ihl =>
    intro segs flip d trs segsOut h
    simp only [buildlinks] at h
    split at h
    · cases h
    · rename_i other rt ro hpl
      split at h
      · split at h
        · cases h
        · rename_i tr1 segs1 hrec
          split at h
          · cases h
          · rename_i trs1 segs2 hrest
            simp only [Except.ok.injEq, Prod.mk.injEq] at h
            obtain ⟨h1, h2⟩ := h
            subst h1 h2
            have e1 := ihgas segs other ro d tr1 segs1 hrec
            have e2 := ihl segs1 flip d trs1 segs2 hrest
            rw [e2, e1]
            simp [preorderList_cons, List.append_assoc]
      · exact ihl segs flip d trs segsOut h

theorem buildtreeAux_preorder (file : List Char) :
    ∀ gas segs ID flip depth tr segs2,
      buildtreeAux file gas segs ID flip depth = .ok (tr, segs2) →
      segs2 = segs ++ preorder tr := by
  intro gas
  induction gas with
  | zero =>
    intro segs ID flip depth tr segs2 h
    rw [buildtreeAux.eq_1] at h
    dsimp only at h
    split at h
    · cases h
    · split at h
      · cases h
      · split at h
        · split at h
          · simp only [Except.ok.injEq, Prod.mk.injEq] at h
            obtain ⟨h1, h2⟩ := h
            subst h1 h2
            simp [preorder_node, preorderList_nil]
          · simp only [Except.ok.injEq, Prod.mk.injEq] at h
            obtain ⟨h1, h2⟩ := h
            subst h1 h2
            simp [preorder_node, preorderList_nil]
        · cases h
  | succ g ih =>
    intro segs ID flip depth tr segs2 h
    rw [buildtreeAux.eq_1] at h
    dsimp only at h
    split at h
    · cases h
    · split at h
      · cases h
      · split at h
        · split at h
          · simp only [Except.ok.injEq, Prod.mk.injEq] at h
            obtain ⟨h1, h2⟩ := h
            subst h1 h2
            simp [preorder_node, preorderList_nil]
          · split at h
            · cases h
            · rename_i branches segs3 hlinks
              simp only [Except.ok.injEq, Prod.mk.injEq] at h
              obtain ⟨h1, h2⟩ := h
              subst h1 h2
              have e1 := buildlinks_preorder file g ih _ _ _ _ _ _ hlinks
              rw [e1]
              simp [preorder_node, preorderList_cons, List.append_assoc]
        · cases h

/-- C10 (confirmed): a successful `buildtree` call extends the flat
segment list by exactly the depth-first preorder listing of the returned
tree: the node's own Segment precedes all of its descendants' Segments,
the root's Segment is the first entry contributed by the call, and
sibling subtrees contribute in the order of their link tokens. -/
theorem C10_flat_list_preorder (file : List Char) (segs : List Segment)
    (ID maxdepth : Nat) (flip : Bool) (depth : Nat) (tr : Tree)
    (segs2 : List Segment)
    (h : buildtree file segs ID maxdepth flip depth = .ok (tr, segs2)) :
    segs2 = segs ++ preorder tr :=
  buildtreeAux_preorder file (maxdepth - depth) segs ID flip depth tr segs2 h

/-- C10 witness: a successful single-node build over `exF2` extends the
empty flat list by exactly the preorder listing of the returned tree. -/
theorem C10_witness :
    [(⟨1, false, ['>', '1'], ['A', 'A']⟩ : Segment)] =
      ([] : List Segment) ++ preorder (.node ⟨1, false, ['>', '1'], ['A', 'A']⟩ .nil) :=
  C10_flat_list_preorder (renderFile exF2) [] 1 3 false 0
    (.node ⟨1, false, ['>', '1'], ['A', 'A']⟩ .nil)
    [⟨1, false, ['>', '1'], ['A', 'A']⟩] (by rfl)

/-! ## Reverse complement (C5) -/

/-- C5 (confirmed): over the alphabet `{A, T, C, G, N}` the
reverse-complement transform is an involution, preserves length, and is
exactly the fixed substitution `A↔T, C↔G, N↔N` followed by reversal. -/
theorem C5_reverse_complement_involution (s : List Char)
    (halpha : ∀ c ∈ s, c ∈ ['A', 'T', 'C', 'G', 'N']) :
    reverse_complement (reverse_complement s) = s ∧
    (reverse_complement s).length = s.length ∧
    reverse_complement s = (s.map complChar).reverse := by
  refine ⟨?_, by simp [reverse_complement], rfl⟩
  unfold reverse_complement
  rw [List.map_reverse, List.reverse_reverse, List.map_map]
  have hmap : s.map (complChar ∘ complChar) = s.map id :=
    List.map_congr_left (fun c hc => by
      have h5 := halpha c hc
      simp only [List.mem_cons, List.not_mem_nil, or_false] at h5
      rcases h5 with rfl | rfl | rfl | rfl | rfl <;> rfl)
  rw [hmap, List.map_id]

/-- C5 witness: the involution, length preservation, and the
substitute-and-reverse description hold on the concrete sequence
`ATCGN`. -/
theorem C5_witness :
    reverse_complement (reverse_complement ['A', 'T', 'C', 'G', 'N']) =
      ['A', 'T', 'C', 'G', 'N'] ∧
    (reverse_complement ['A', 'T', 'C', 'G', 'N']).length = 5 ∧
    reverse_complement ['A', 'T', 'C', 'G', 'N'] =
      (['A', 'T', 'C', 'G', 'N'].map complChar).reverse := by
  have happ := C5_reverse_complement_involution ['A', 'T', 'C', 'G', 'N'] (by decide)
  exact ⟨happ.1, happ.2.1, happ.2.2⟩

/-! ## Link parsing (C6) -/

/-- C6 (confirmed): `parse_link` fails exactly when the token does not
split into four colon-separated fields or when its third field is not an
integer; on four fields with an integer third field it returns that
integer together with the orientation flags, each true exactly when the
corresponding field equals `-` (any other symbol counting as forward). -/
theorem C6_parse_link_spec (text : List Char) :
    match splitColon text with
    | [_bits0, bits1, bits2, bits3] =>
        (parseNat? bits2 = none → parse_link text = .error .badInt) ∧
        (∀ other, parseNat? bits2 = some other →
          parse_link text = .ok (other, bits1 == ['-'], bits3 == ['-']))
    | _ => parse_link text = .error .malformedLink := by
  unfold parse_link
  cases hsp : splitColon text with
  | nil => rfl
  | cons b0 t0 =>
    cases t0 with
    | nil => rfl
    | cons b1 t1 =>
      cases t1 with
      | nil => rfl
      | cons b2 t2 =>
        cases t2 with
        | nil => rfl
        | cons b3 t3 =>
          cases t3 with
          | cons b4 t4 => rfl
          | nil =>
            refine ⟨fun hn => ?_, fun other ho => ?_⟩
            · simp only [hn]
            · simp only [ho]

/-- C6 witness: on the token `L:+:2:-` the parser returns target `2`,
this-side forward (`+` is not the reversed symbol), other-side
reversed. -/
theorem C6_witness :
    parse_link ['L', ':', '+', ':', '2', ':', '-'] = .ok (2, false, true) := by
  have happ := C6_parse_link_spec ['L', ':', '+', ':', '2', ':', '-']
  exact happ.2 2 (by rfl)

/-! ## Deduplication (C7) -/

theorem find?_map_overwrite (k : Nat) (v : Segment) :
    ∀ d : List (Nat × Segment),
      (d.map (fun p => if p.1 == k then (k, v) else p)).find? (fun p => p.1 == k) =
      if d.any (fun p => p.1 == k) then some (k, v) else none := by
  intro d
  induction d with
  | nil => rfl
  | cons p d' ih =>
    simp only [List.map_cons, List.any_cons]
    by_cases hp : (p.1 == k) = true
    · simp [List.find?, hp]
    · have hpf : (p.1 == k) = false := by
        cases hb : (p.1 == k) with
        | true => exact absurd hb hp
        | false => rfl
      rw [if_neg hp]
      simp only [List.find?_cons, hpf, Bool.false_or]
      exact ih

theorem find?_none_of_any_false (k : Nat) (d : List (Nat × Segment))
    (h : d.any (fun p => p.1 == k) = false) :
    d.find? (fun p => p.1 == k) = none := by
  rw [List.find?_eq_none]
  intro x hx
  exact List.any_eq_false.mp h x hx

theorem dictGet?_insert_same (d : List (Nat × Segment)) (k : Nat) (v : Segment) :
    dictGet? (dictInsert d k v) k = some v := by
  unfold dictInsert dictGet?
  by_cases hany : (d.any (fun p => p.1 == k)) = true
  · rw [if_pos hany, find?_map_overwrite, if_pos hany]
    rfl
  · have hanyf : d.any (fun p => p.1 == k) = false := by
      cases hb : d.any (fun p => p.1 == k) with
      | true => exact absurd hb hany
      | false => rfl
    rw [if_neg hany, List.find?_append, find?_none_of_any_false k d hanyf]
    simp [List.find?]

theorem find?_map_overwrite_other (k k' : Nat) (v : Segment) (hkk : k' ≠ k) :
    ∀ d : List (Nat × Segment),
      (d.map (fun p => if p.1 == k then (k, v) else p)).find? (fun p => p.1 == k') =
      d.find? (fun p => p.1 == k') := by
  intro d
  have hkv : ((k : Nat) == k') = false :=
    beq_eq_false_iff_ne.mpr (fun h => hkk h.symm)
  induction d with
  | nil => rfl
  | cons p d' ih =>
    simp only [List.map_cons]
    by_cases hp : (p.1 == k) = true
    · have hp1 : p.1 = k := eq_of_beq hp
      have hpk' : (p.1 == k') = false := by
        rw [hp1]
        exact hkv
      rw [if_pos hp]
      simp only [List.find?_cons, hkv, hpk']
      exact ih
    · by_cases hq : (p.1 == k') = true
      · simp [List.find?, hp, hq]
      · have hqf : (p.1 == k') = false := by
          cases hb : (p.1 == k') with
          | true => exact absurd hb hq
          | false => rfl
        rw [if_neg hp]
        simp only [List.find?_cons, hqf]
        exact ih

theorem dictGet?_insert_other (d : List (Nat × Segment)) (k k' : Nat) (v : Segment)
    (hkk : k' ≠ k) :
    dictGet? (dictInsert d k v) k' = dictGet? d k' := by
  unfold dictInsert dictGet?
  by_cases hany : (d.any (fun p => p.1 == k)) = true
  · rw [if_pos hany, find?_map_overwrite_other k k' v hkk]
  · have hkv : ((k : Nat) == k') = false :=
      beq_eq_false_iff_ne.mpr (fun h => hkk h.symm)
    rw [if_neg hany, List.find?_append]
    have hsingle : List.find? (fun p => p.1 == k') [(k, v)] = none := by
      simp [List.find?, hkv]
    rw [hsingle]
    simp

/-- C7 (confirmed): the dict comprehension maps each identifier occurring
in the flat list to the last segment in list order bearing that
identifier (and identifiers not occurring at all to nothing); the claim's
two-segment instance `[A, B]` with a shared identifier is the special
case where the filter ends in `B`. -/
theorem C7_dedupe_last_wins (segments : List Segment) (k : Nat) :
    dictGet? (dedupe segments) k = (segments.filter (fun s => s.ID == k)).getLast? := by
  induction segments using List.reverseRecOn with
  | nil => rfl
  | append_singleton ss s ih =>
    unfold dedupe at *
    rw [List.foldl_append]
    simp only [List.foldl_cons, List.foldl_nil]
    rw [List.filter_append]
    by_cases hs : (s.ID == k) = true
    · have hk : s.ID = k := eq_of_beq hs
      subst hk
      rw [dictGet?_insert_same]
      simp [List.filter, hs, List.getLast?_concat]
    · rw [dictGet?_insert_other _ _ _ _
        (fun hcon => hs (by rw [hcon]; exact beq_self_eq_true s.ID))]
      rw [ih]
      simp [List.filter, hs]

/-! ## Resource handling (C8) -/

/-- C8 (corrected): a locate call never releases the file handle it
opens, on any exit path; the memory map is released exactly on the
successful exit, and not on the failure path.  The claim that every
acquired resource is released on every exit path is refuted by the
counterexample below. -/
theorem C8_resource_release (target : Nat) (file : List Char) :
    (linehunterResources target file).2.2 = false ∧
    (∀ v, linehunter target file = .ok v →
      (linehunterResources target file).2.1 = true) ∧
    (∀ e, linehunter target file = .error e →
      (linehunterResources target file).2.1 = false) := by
  unfold linehunterResources
  cases hres : linehunter target file with
  | ok v =>
    refine ⟨rfl, fun v' hv => rfl, fun e he => ?_⟩
    cases he
  | error e =>
    refine ⟨rfl, fun v hv => ?_, fun e' he => rfl⟩
    cases hv

/-- C8 counterexample: on a successful locate over `exF2` the file handle
is not released (and so not every acquired resource is released on every
exit path, already on the success path). -/
theorem C8_counterexample :
    ¬((linehunterResources 1 (renderFile exF2)).2.1 = true ∧
      (linehunterResources 1 (renderFile exF2)).2.2 = true) := by
  decide

/-- C8 witness: the amended description instantiated on a successful
locate: the memory map is released, the file handle is not. -/
theorem C8_witness :
    (linehunterResources 1 (renderFile exF2)).2.2 = false ∧
    (linehunterResources 1 (renderFile exF2)).2.1 = true :=
  ⟨(C8_resource_release 1 (renderFile exF2)).1,
   (C8_resource_release 1 (renderFile exF2)).2.1 (0, ['>', '1'], ['A', 'A']) (by rfl)⟩

end Contigtree
